import Mathlib

/-!
Verification development for the task-list application in `src/src/App.tsx`.

The repository holds three near-identical variants of a single-page to-do
application. The state container is embedded here as pure functions over an
explicit task list, following the source closely:

* `Todo` mirrors the `Todo` type (variant 1/3 shape, with `createdAt`;
  variant 2 omits `createdAt`, which no operation other than the sort reads).
* `addTodo`, `toggleTodo`, `deleteTodo`, `saveEdit`, `cancelEdit`,
  `clearCompleted` embed the corresponding handlers. Handlers that read
  ambient React state (`newTodo`, `editingId`, `editText`) take that state as
  explicit arguments; `crypto.randomUUID()` and `Date.now()` are modelled as
  the explicit arguments `newId` and `now` supplied by the environment.
* `filteredTodos` / `filteredTodos2` embed the two derived-view computations
  (variant 1 sorts with a comparator; variant 2 only filters). JavaScript's
  `Array.prototype.sort`, stable per ECMAScript 2019, is modelled by
  `List.mergeSort` with the comparator translated to a boolean `le`.
* Persistence: `saveTodos` embeds `JSON.stringify(todos)` for this task
  shape, `jsonParse` embeds `JSON.parse` (restricted to the JSON fragment
  the application can store: strings with escapes, natural-number literals,
  booleans, null, arrays, objects, whitespace), and `loadTodos` embeds the
  load effect, including its JavaScript truthiness guard on the stored
  string. A `JSON.parse` exception is modelled as `Except.error`.

JavaScript's `String.prototype.trim` is modelled executably by `jsTrim`,
which removes the ECMAScript WhiteSpace and LineTerminator code points from
both ends of the string.
-/

namespace TodoApp

/-- The ECMAScript WhiteSpace and LineTerminator code points removed by
`String.prototype.trim`: TAB, LF, VT, FF, CR, SP, NBSP, the Unicode
space separators, LINE SEPARATOR, PARAGRAPH SEPARATOR, NARROW NO-BREAK
SPACE, MEDIUM MATHEMATICAL SPACE, IDEOGRAPHIC SPACE and ZWNBSP. -/
def isJsWs (c : Char) : Bool :=
  (9 ≤ c.toNat && c.toNat ≤ 13) || c.toNat = 32 || c.toNat = 160 ||
    c.toNat = 5760 || (8192 ≤ c.toNat && c.toNat ≤ 8202) ||
    c.toNat = 8232 || c.toNat = 8233 || c.toNat = 8239 || c.toNat = 8287 ||
    c.toNat = 12288 || c.toNat = 65279

/-- Model of `String.prototype.trim`: drop leading and trailing whitespace. -/
def jsTrim (s : String) : String :=
  String.mk (((s.data.dropWhile isJsWs).reverse.dropWhile isJsWs).reverse)

/-- The `Todo` record from the source: `id`, `text`, `completed`, `createdAt`.
`createdAt` is a `Date.now()` millisecond count, a natural number. -/
structure Todo where
  id : String
  text : String
  completed : Bool
  createdAt : Nat
deriving Repr, DecidableEq, Inhabited

/-- The `FilterType` union: `'all' | 'active' | 'completed'`. -/
inductive FilterType where
  | all
  | active
  | completed
deriving Repr, DecidableEq

/-- Embeds `addTodo` from the source: if `newTodo.trim() !== ''`, append a task
built from a fresh uuid, the trimmed text, `completed: false` and the
current time; otherwise do nothing. -/
def addTodo (todos : List Todo) (newTodo : String) (newId : String) (now : Nat) :
    List Todo :=
  if jsTrim newTodo ≠ "" then todos ++ [⟨newId, jsTrim newTodo, false, now⟩] else todos

/-- Embeds `toggleTodo` from the source: map over the list, spreading the todo and
negating `completed` where the id matches. -/
def toggleTodo (todos : List Todo) (id : String) : List Todo :=
  todos.map fun t => if t.id = id then ⟨t.id, t.text, !t.completed, t.createdAt⟩ else t

/-- Embeds `deleteTodo` from the source: keep tasks whose id differs. -/
def deleteTodo (todos : List Todo) (id : String) : List Todo :=
  todos.filter fun t => t.id != id

/-- The `Clear completed` button handler: `todos.filter(todo => !todo.completed)`. -/
def clearCompleted (todos : List Todo) : List Todo :=
  todos.filter fun t => !t.completed

/-- Embeds `saveEdit` from the source. The guard `if (editingId && editText.trim() !== '')`
uses JavaScript truthiness: it fails for `null` and for the empty string.
On success the matching task's text becomes the trimmed draft and the edit
session returns to idle (`setEditingId(null)`); otherwise nothing changes.
Returns the new `(todos, editingId)` pair. -/
def saveEdit (todos : List Todo) (editingId : Option String) (editText : String) :
    List Todo × Option String :=
  match editingId with
  | some i =>
    if i ≠ "" ∧ jsTrim editText ≠ "" then
      (todos.map fun t => if t.id = i then ⟨t.id, jsTrim editText, t.completed, t.createdAt⟩ else t,
       none)
    else (todos, some i)
  | none => (todos, none)

/-- Embeds `cancelEdit` from the source: `setEditingId(null)`, todos untouched. -/
def cancelEdit (todos : List Todo) (editingId : Option String) :
    List Todo × Option String :=
  (todos, none)

/-- Embeds `startEditing` from the source: enter the editing session for a task,
copying its text into the draft buffer. Returns `(editingId, editText)`. -/
def startEditing (todo : Todo) : Option String × String :=
  (some todo.id, todo.text)

/-- The filter callback shared by all three variants:
`active` keeps incomplete tasks, `completed` keeps complete ones,
anything else passes everything. -/
def filterPred (filter : FilterType) (t : Todo) : Bool :=
  if filter = .active then !t.completed
  else if filter = .completed then t.completed
  else true

/-- Variant 1's sort comparator, as a boolean `le` relation
(`le a b` iff the comparator does not place `a` strictly after `b`):
incomplete before complete, then newer (larger `createdAt`) first. -/
def todoLe (a b : Todo) : Bool :=
  if a.completed = b.completed then decide (b.createdAt ≤ a.createdAt)
  else !a.completed

/-- Variant 1's `.sort(...)` call, modelled as a stable merge sort with the
comparator `todoLe` (ECMAScript requires `Array.prototype.sort` to be stable). -/
def sortTodos (todos : List Todo) : List Todo :=
  todos.mergeSort todoLe

/-- Variant 1's `filteredTodos`: filter by the active filter, then sort. -/
def filteredTodos (todos : List Todo) (filter : FilterType) : List Todo :=
  sortTodos (todos.filter (filterPred filter))

/-- Variants 2 and 3's `filteredTodos`: filter only, no sort. -/
def filteredTodos2 (todos : List Todo) (filter : FilterType) : List Todo :=
  todos.filter (filterPred filter)

/-- The data-model invariant from the specification: all ids pairwise
distinct and no task's text is the empty string. -/
def TodosValid (todos : List Todo) : Prop :=
  (todos.map Todo.id).Nodup ∧ ∀ t ∈ todos, t.text ≠ ""

instance : DecidablePred TodosValid := fun todos =>
  inferInstanceAs (Decidable (_ ∧ _))

/-! ## Persistence: the JSON value model

`localStorage` stores strings. The save effect writes
`JSON.stringify(todos)`; the load effect reads the stored string and, when
it is truthy, runs `JSON.parse` on it (uncaught `SyntaxError` on malformed
input). `Json` is the value universe `JSON.parse` produces, with numbers
restricted to naturals — the only numbers this application ever stores are
`Date.now()` timestamps. -/

inductive Json where
  | null
  | bool (b : Bool)
  | num (n : Nat)
  | str (s : String)
  | arr (elems : List Json)
  | obj (members : List (String × Json))

/-- The double-quote character. Punctuation characters are spelled via
their code points throughout this file. -/
def qu : Char := Char.ofNat 34

/-- The backslash character. -/
def bs : Char := Char.ofNat 92

/-- Left curly brace. -/
def lcurly : Char := Char.ofNat 123

/-- Right curly brace. -/
def rcurly : Char := Char.ofNat 125

/-- Left square bracket. -/
def lsq : Char := Char.ofNat 91

/-- Right square bracket. -/
def rsq : Char := Char.ofNat 93

/-- Comma. -/
def cm : Char := Char.ofNat 44

/-- Colon. -/
def cl : Char := Char.ofNat 58

/-- Forward slash. -/
def slash : Char := Char.ofNat 47

/-- Hexadecimal digit character for `d < 16` (lower case, as
`JSON.stringify` emits). -/
def hexDigitChar (d : Nat) : Char :=
  if d < 10 then Char.ofNat (48 + d) else Char.ofNat (87 + d)

/-- How `JSON.stringify` renders one character inside a string literal:
quote and backslash get escaped, the five named control characters get
their short escapes, the remaining control characters become `\u00XX`,
everything else is emitted literally. -/
def escapeChar (c : Char) : List Char :=
  if c = qu then [bs, qu]
  else if c = bs then [bs, bs]
  else if c = Char.ofNat 8 then [bs, 'b']
  else if c = Char.ofNat 9 then [bs, 't']
  else if c = Char.ofNat 10 then [bs, 'n']
  else if c = Char.ofNat 12 then [bs, 'f']
  else if c = Char.ofNat 13 then [bs, 'r']
  else if c.toNat < 32 then
    [bs, 'u', '0', '0', hexDigitChar (c.toNat / 16), hexDigitChar (c.toNat % 16)]
  else [c]

/-- The `JSON.stringify` rendering of a string value. -/
def renderString (s : String) : List Char :=
  qu :: (s.data.flatMap escapeChar) ++ [qu]

/-- Decimal digits of `n`, most significant first, prepended to `acc`.
Structural recursion on a fuel argument so that the definition reduces in
the kernel; any `fuel > n` is enough, since `n / 10 < n` on each step. -/
def natDigitsAux : Nat → Nat → List Char → List Char
  | 0, _, acc => acc
  | fuel + 1, n, acc =>
    if n < 10 then Char.ofNat (48 + n) :: acc
    else natDigitsAux fuel (n / 10) (Char.ofNat (48 + n % 10) :: acc)

/-- The `JSON.stringify` rendering of a natural number. -/
def renderNat (n : Nat) : List Char :=
  natDigitsAux (n + 1) n []

/-- The `JSON.stringify` rendering of a boolean. -/
def renderBool : Bool → List Char
  | true => ['t', 'r', 'u', 'e']
  | false => ['f', 'a', 'l', 's', 'e']

/-- The `JSON.stringify` rendering of one `Todo` object, with the keys in the
insertion order of the object literal in `addTodo`:
`{"id":…,"text":…,"completed":…,"createdAt":…}`. -/
def renderTodo (t : Todo) : List Char :=
  lcurly :: renderString "id" ++ cl :: renderString t.id
    ++ cm :: renderString "text" ++ cl :: renderString t.text
    ++ cm :: renderString "completed" ++ cl :: renderBool t.completed
    ++ cm :: renderString "createdAt" ++ cl :: renderNat t.createdAt
    ++ [rcurly]

/-- The comma-joined bodies of the array elements. -/
def renderTodosBody : List Todo → List Char
  | [] => []
  | [t] => renderTodo t
  | t :: rest => renderTodo t ++ cm :: renderTodosBody rest

/-- The stored text `JSON.stringify(todos)`: the serialized task array. -/
def renderTodos (todos : List Todo) : List Char :=
  lsq :: renderTodosBody todos ++ [rsq]

/-- The save effect's stored value: `JSON.stringify(todos)` as a string. -/
def saveTodos (todos : List Todo) : String :=
  String.mk (renderTodos todos)

/-! ## Persistence: the JSON parser (`JSON.parse`) -/

/-- JSON insignificant whitespace. -/
def isWs (c : Char) : Bool :=
  c = ' ' || c = Char.ofNat 9 || c = Char.ofNat 10 || c = Char.ofNat 13

/-- Drop leading JSON whitespace. -/
def skipWs : List Char → List Char
  | [] => []
  | c :: cs => if isWs c then skipWs cs else c :: cs

/-- Strip an expected literal character sequence, or fail. -/
def expectLit : List Char → List Char → Option (List Char)
  | [], cs => some cs
  | _ :: _, [] => none
  | p :: ps, c :: cs => if c = p then expectLit ps cs else none

/-- Value of a hexadecimal digit character. -/
def hexVal (c : Char) : Option Nat :=
  if 48 ≤ c.toNat ∧ c.toNat ≤ 57 then some (c.toNat - 48)
  else if 97 ≤ c.toNat ∧ c.toNat ≤ 102 then some (c.toNat - 87)
  else if 65 ≤ c.toNat ∧ c.toNat ≤ 70 then some (c.toNat - 55)
  else none

/-- Parse the body of a JSON string literal (the opening quote already
consumed), returning the decoded characters and the remaining input.
Raw control characters are rejected, escapes are decoded. Restriction of
the model: a `\uXXXX` escape must denote a valid unicode scalar value —
real `JSON.parse` also accepts lone surrogates, which produce unpaired
UTF-16 code units that Lean's `Char` cannot represent. `JSON.stringify`
never emits such escapes for this application's data, and no theorem
below exercises them. -/
def parseStringBody : List Char → Option (List Char × List Char)
  | [] => none
  | c :: rest =>
    if c = qu then some ([], rest)
    else if c = bs then
      match rest with
      | [] => none
      | e :: rest2 =>
        if e = qu then (parseStringBody rest2).map fun p => (qu :: p.1, p.2)
        else if e = bs then (parseStringBody rest2).map fun p => (bs :: p.1, p.2)
        else if e = slash then (parseStringBody rest2).map fun p => (slash :: p.1, p.2)
        else if e = 'b' then (parseStringBody rest2).map fun p => (Char.ofNat 8 :: p.1, p.2)
        else if e = 'f' then (parseStringBody rest2).map fun p => (Char.ofNat 12 :: p.1, p.2)
        else if e = 'n' then (parseStringBody rest2).map fun p => (Char.ofNat 10 :: p.1, p.2)
        else if e = 'r' then (parseStringBody rest2).map fun p => (Char.ofNat 13 :: p.1, p.2)
        else if e = 't' then (parseStringBody rest2).map fun p => (Char.ofNat 9 :: p.1, p.2)
        else if e = 'u' then
          match rest2 with
          | h1 :: h2 :: h3 :: h4 :: rest3 =>
            match hexVal h1, hexVal h2, hexVal h3, hexVal h4 with
            | some d1, some d2, some d3, some d4 =>
              let n := 4096 * d1 + 256 * d2 + 16 * d3 + d4
              if n.isValidChar then
                (parseStringBody rest3).map fun p => (Char.ofNat n :: p.1, p.2)
              else none
            | _, _, _, _ => none
          | _ => none
        else none
    else if c.toNat < 32 then none
    else (parseStringBody rest).map fun p => (c :: p.1, p.2)

/-- Interpret a list of decimal digit characters, most significant first. -/
def digitsToNat (acc : Nat) : List Char → Nat
  | [] => acc
  | c :: cs => digitsToNat (10 * acc + (c.toNat - 48)) cs

/-- Parser mode: a single value, the elements of an array (after `[` and
at least one element), or the members of an object (after `{` and at
least one member). The accumulators carry what has been parsed so far. -/
inductive PMode where
  | val
  | elems (acc : List Json)
  | members (acc : List (String × Json))

/-- The recursive core of `JSON.parse`, fuel-indexed. Each call consumes
one unit of fuel, so `fuel` bounds the recursion depth; the top-level
wrapper supplies more fuel than any serialized collection consumes.
Restriction of the model: the number production covers only the number
literals this application can store — unsigned leading-zero-free decimal
integers, as `JSON.stringify` renders the `Date.now()` timestamps — not
JSON's full grammar with sign, fraction and exponent, and it omits the
leading-zero rejection. The parser therefore matches `JSON.parse` exactly
on the serialization sublanguage and on inputs rejected at their first
token, and every theorem below stays inside that region. -/
def parseStep : Nat → PMode → List Char → Option (Json × List Char)
  | 0, _, _ => none
  | fuel + 1, .val, cs =>
    match skipWs cs with
    | [] => none
    | c :: rest =>
      if c = 'n' then (expectLit ['u', 'l', 'l'] rest).map fun r => (.null, r)
      else if c = 't' then (expectLit ['r', 'u', 'e'] rest).map fun r => (.bool true, r)
      else if c = 'f' then (expectLit ['a', 'l', 's', 'e'] rest).map fun r => (.bool false, r)
      else if c = qu then (parseStringBody rest).map fun p => (.str (String.mk p.1), p.2)
      else if c = lsq then
        match skipWs rest with
        | [] => none
        | d :: rest2 =>
          if d = rsq then some (.arr [], rest2)
          else parseStep fuel (.elems []) (d :: rest2)
      else if c = lcurly then
        match skipWs rest with
        | [] => none
        | d :: rest2 =>
          if d = rcurly then some (.obj [], rest2)
          else parseStep fuel (.members []) (d :: rest2)
      else if c.isDigit then
        let ds := (c :: rest).takeWhile Char.isDigit
        some (.num (digitsToNat 0 ds), (c :: rest).dropWhile Char.isDigit)
      else none
  | fuel + 1, .elems acc, cs => do
    let (v, rest) ← parseStep fuel .val cs
    match skipWs rest with
    | [] => none
    | d :: rest2 =>
      if d = cm then parseStep fuel (.elems (acc ++ [v])) rest2
      else if d = rsq then some (.arr (acc ++ [v]), rest2)
      else none
  | fuel + 1, .members acc, cs =>
    match skipWs cs with
    | [] => none
    | c :: rest =>
      if c = qu then do
        let (k, rest1) ← parseStringBody rest
        match skipWs rest1 with
        | [] => none
        | d :: rest2 =>
          if d = cl then do
            let (v, rest3) ← parseStep fuel .val rest2
            match skipWs rest3 with
            | [] => none
            | e :: rest4 =>
              if e = cm then
                parseStep fuel (.members (acc ++ [(String.mk k, v)])) rest4
              else if e = rcurly then
                some (.obj (acc ++ [(String.mk k, v)]), rest4)
              else none
          else none
      else none

/-- Model of `JSON.parse`: parse one value and require only whitespace to
remain; `none` models a thrown `SyntaxError`. Per the restrictions noted
on `parseStep` and `parseStringBody`, this model agrees with `JSON.parse`
exactly on the output language of `saveTodos` and on inputs whose first
token already fails (no JSON value starts there); the theorems below
invoke it only on such inputs, never on its general failure set. -/
def jsonParse (s : String) : Option Json :=
  match parseStep (s.length + 1) .val s.data with
  | some (v, rest) => if skipWs rest = [] then some v else none
  | none => none

/-! ## Persistence: the load effect

The load effect does not validate the parsed value — `setTodos(JSON.parse(s))`
simply installs it. Within this typed embedding, a parsed value is usable as
the task collection exactly when it has the task-array shape; `todoOfJson` /
`todosOfJson` express that reinterpretation. A parsed value of any other
shape escapes the `List Todo` model and is reported as `LoadError.shape`. -/

/-- Reinterpret one parsed JSON value as a `Todo` record: an object with
exactly the four fields in the stored order and of the stored types. -/
def todoOfJson : Json → Option Todo
  | .obj [(k1, .str i), (k2, .str x), (k3, .bool c), (k4, .num n)] =>
    if k1 = "id" ∧ k2 = "text" ∧ k3 = "completed" ∧ k4 = "createdAt" then
      some ⟨i, x, c, n⟩
    else none
  | _ => none

/-- Reinterpret a list of parsed JSON values as tasks, failing if any
element is not a task object. -/
def todoListOfJson : List Json → Option (List Todo)
  | [] => some []
  | j :: js =>
    match todoOfJson j, todoListOfJson js with
    | some t, some ts => some (t :: ts)
    | _, _ => none

/-- Reinterpret a parsed JSON value as the task array. -/
def todosOfJson : Json → Option (List Todo)
  | .arr elems => todoListOfJson elems
  | _ => none

/-- The JSON value `JSON.parse` recovers from one stored task object:
the four fields, in stored order. -/
def todoToJson (t : Todo) : Json :=
  .obj [("id", .str t.id), ("text", .str t.text),
        ("completed", .bool t.completed), ("createdAt", .num t.createdAt)]

/-- How the load effect can fail to produce a task collection:
`parse` models `JSON.parse` throwing a `SyntaxError` (uncaught in the
source); `shape` models a successfully parsed value that is not a task
array and therefore leaves the `List Todo` data model. -/
inductive LoadError where
  | parse
  | shape
deriving Repr, DecidableEq

/-- The load effect: read the stored value under the `todos` key. A missing
key (`null`) and the empty string are falsy, so the guard `if (savedTodos)`
skips the parse and the collection stays empty; otherwise the stored text is
given to `JSON.parse`. -/
def loadTodos (stored : Option String) : Except LoadError (List Todo) :=
  match stored with
  | none => .ok []
  | some s =>
    if s = "" then .ok []
    else
      match jsonParse s with
      | none => .error .parse
      | some v =>
        match todosOfJson v with
        | none => .error .shape
        | some todos => .ok todos

/-! ## Helper lemmas -/

/-- Deleting an id that no task carries keeps every task. -/
theorem deleteTodo_of_not_mem (todos : List Todo) (i : String)
    (hni : i ∉ todos.map Todo.id) : deleteTodo todos i = todos := by
  apply List.filter_eq_self.mpr
  intro t ht
  have : t.id ≠ i := fun heq => hni (heq ▸ List.mem_map_of_mem Todo.id ht)
  simpa using this

/-! ## Claim theorems: the Task Store operations -/

/-- C1 For every collection and input string: if the input trims to the
empty string, `add` leaves the collection unchanged; otherwise it appends
exactly one task (count grows by one, the prior tasks are kept in place),
whose text is the trimmed input, whose `completed` is `false`, and whose id
is the freshly generated uuid, absent from the prior collection. -/
theorem addTodo_spec (todos : List Todo) (text newId : String) (now : Nat)
    (hfresh : newId ∉ todos.map Todo.id) :
    (jsTrim text = "" → addTodo todos text newId now = todos) ∧
    (jsTrim text ≠ "" →
      (addTodo todos text newId now).length = todos.length + 1 ∧
      (addTodo todos text newId now).take todos.length = todos ∧
      (addTodo todos text newId now).getLast? = some ⟨newId, jsTrim text, false, now⟩ ∧
      ∀ t ∈ todos, t.id ≠ newId) := by
  refine ⟨fun h => by simp [addTodo, h], fun h => ⟨?_, ?_, ?_, ?_⟩⟩
  · simp [addTodo, h]
  · rw [addTodo, if_pos h]
    exact List.take_left todos _
  · rw [addTodo, if_pos h]
    exact List.getLast?_concat todos
  · intro t ht heq
    exact hfresh (heq ▸ List.mem_map_of_mem Todo.id ht)

/-- Witness for C1 at concrete inputs. -/
theorem addTodo_spec_witness :
    addTodo [] "   " "u1" 5 = [] ∧
    (addTodo [⟨"a", "x", false, 0⟩] " hi " "u1" 5).length = 2 ∧
    (addTodo [⟨"a", "x", false, 0⟩] " hi " "u1" 5).getLast? =
      some ⟨"u1", "hi", false, 5⟩ := by
  refine ⟨(addTodo_spec [] "   " "u1" 5 (by decide)).1 (by decide), ?_, ?_⟩
  · exact ((addTodo_spec [⟨"a", "x", false, 0⟩] " hi " "u1" 5 (by decide)).2
      (by decide)).1
  · exact ((addTodo_spec [⟨"a", "x", false, 0⟩] " hi " "u1" 5 (by decide)).2
      (by decide)).2.2.1

/-- C5 `clearCompleted` produces exactly the subsequence of incomplete
tasks: the result is a sublist (original relative order, fields untouched),
every surviving task is incomplete, and each incomplete task keeps its
multiplicity while each completed task disappears. -/
theorem clearCompleted_spec (todos : List Todo) :
    (clearCompleted todos).Sublist todos ∧
    (∀ t ∈ clearCompleted todos, t.completed = false) ∧
    (∀ t : Todo, (clearCompleted todos).count t =
      if t.completed = false then todos.count t else 0) := by
  refine ⟨List.filter_sublist todos, ?_, ?_⟩
  · intro t ht
    have := List.of_mem_filter ht
    simpa using this
  · intro t
    by_cases h : t.completed = false
    · rw [if_pos h]
      exact List.count_filter (by simp [h])
    · rw [if_neg h]
      rw [List.count_eq_zero]
      intro hmem
      have := List.of_mem_filter hmem
      simp at this
      exact h this

/-- Witness for C5 at a concrete collection (the statement's inner
quantifiers instantiated). -/
theorem clearCompleted_spec_witness :
    (clearCompleted [⟨"a", "x", true, 0⟩, ⟨"b", "y", false, 1⟩]).Sublist
      [⟨"a", "x", true, 0⟩, ⟨"b", "y", false, 1⟩] ∧
    (clearCompleted [⟨"a", "x", true, 0⟩, ⟨"b", "y", false, 1⟩]).count
      ⟨"a", "x", true, 0⟩ = 0 := by
  refine ⟨(clearCompleted_spec _).1, ?_⟩
  have h := (clearCompleted_spec [⟨"a", "x", true, 0⟩, ⟨"b", "y", false, 1⟩]).2.2
    ⟨"a", "x", true, 0⟩
  simpa using h

/-- C6 In both view computations, the `active` and `completed` views
partition the `all` view as sets: their union is the `all` view and they
are disjoint. -/
theorem views_partition (todos : List Todo) (t : Todo) :
    ((t ∈ filteredTodos todos .all ↔
        t ∈ filteredTodos todos .active ∨ t ∈ filteredTodos todos .completed) ∧
      ¬(t ∈ filteredTodos todos .active ∧ t ∈ filteredTodos todos .completed)) ∧
    ((t ∈ filteredTodos2 todos .all ↔
        t ∈ filteredTodos2 todos .active ∨ t ∈ filteredTodos2 todos .completed) ∧
      ¬(t ∈ filteredTodos2 todos .active ∧ t ∈ filteredTodos2 todos .completed)) := by
  have hmem : ∀ f, t ∈ filteredTodos todos f ↔ t ∈ filteredTodos2 todos f := by
    intro f
    simp [filteredTodos, filteredTodos2, sortTodos]
  have key : (t ∈ filteredTodos2 todos .all ↔
      t ∈ filteredTodos2 todos .active ∨ t ∈ filteredTodos2 todos .completed) ∧
      ¬(t ∈ filteredTodos2 todos .active ∧ t ∈ filteredTodos2 todos .completed) := by
    simp only [filteredTodos2, List.mem_filter, filterPred]
    cases hc : t.completed <;> simp [hc]
  exact ⟨by rw [hmem, hmem, hmem]; exact key, key⟩

/-- Witness for C6 at a concrete collection and task. -/
theorem views_partition_witness :
    (⟨"a", "x", false, 0⟩ ∈ filteredTodos [⟨"a", "x", false, 0⟩] .all ↔
      ⟨"a", "x", false, 0⟩ ∈ filteredTodos [⟨"a", "x", false, 0⟩] .active ∨
      ⟨"a", "x", false, 0⟩ ∈ filteredTodos [⟨"a", "x", false, 0⟩] .completed) ∧
    ¬(⟨"a", "x", false, 0⟩ ∈ filteredTodos [⟨"a", "x", false, 0⟩] .active ∧
      ⟨"a", "x", false, 0⟩ ∈ filteredTodos [⟨"a", "x", false, 0⟩] .completed) :=
  (views_partition [⟨"a", "x", false, 0⟩] ⟨"a", "x", false, 0⟩).1

/-- C8 Under the unique-id invariant, `delete` of an unknown id leaves the
collection unchanged; `delete` of a known id shrinks the count by exactly
one; and the deleted id never remains. -/
theorem deleteTodo_spec (todos : List Todo) (i : String)
    (h : (todos.map Todo.id).Nodup) :
    (i ∉ todos.map Todo.id → deleteTodo todos i = todos) ∧
    i ∉ (deleteTodo todos i).map Todo.id ∧
    (i ∈ todos.map Todo.id → (deleteTodo todos i).length + 1 = todos.length) := by
  refine ⟨deleteTodo_of_not_mem todos i, ?_, ?_⟩
  · intro hmem
    rcases List.mem_map.mp hmem with ⟨t, ht, hid⟩
    have := List.of_mem_filter ht
    simp [hid] at this
  · induction todos with
    | nil => intro hmem; simp at hmem
    | cons a ts ih =>
      intro hmem
      simp only [List.map_cons, List.nodup_cons] at h
      by_cases ha : a.id = i
      · have hni : i ∉ ts.map Todo.id := ha ▸ h.1
        have hts : deleteTodo ts i = ts := deleteTodo_of_not_mem ts i hni
        simp only [deleteTodo, List.filter_cons] at hts ⊢
        simp [ha, hts]
      · have hmem' : i ∈ ts.map Todo.id := by
          rcases List.mem_map.mp hmem with ⟨t, ht, hid⟩
          rcases List.mem_cons.mp ht with rfl | ht'
          · exact absurd hid ha
          · exact hid ▸ List.mem_map_of_mem Todo.id ht'
        have := ih h.2 hmem'
        simp only [deleteTodo, List.filter_cons] at this ⊢
        have hne : (a.id != i) = true := by simpa using ha
        simp [hne, List.length_cons]
        omega

/-- Witness for C8 at concrete inputs. -/
theorem deleteTodo_spec_witness :
    deleteTodo [⟨"a", "x", false, 0⟩] "zzz" = [⟨"a", "x", false, 0⟩] ∧
    (deleteTodo [⟨"a", "x", false, 0⟩, ⟨"b", "y", true, 1⟩] "a").length + 1 = 2 := by
  constructor
  · exact (deleteTodo_spec [⟨"a", "x", false, 0⟩] "zzz" (by decide)).1 (by decide)
  · exact (deleteTodo_spec [⟨"a", "x", false, 0⟩, ⟨"b", "y", true, 1⟩] "a"
      (by decide)).2.2 (by decide)

/-- The sort comparator is transitive (as the boolean relation `todoLe`). -/
theorem todoLe_trans (a b c : Todo) : todoLe a b → todoLe b c → todoLe a c := by
  simp only [todoLe]
  cases ha : a.completed <;> cases hb : b.completed <;> cases hc : c.completed <;>
    simp_all <;> omega

/-- The sort comparator is total (as the boolean relation `todoLe`). -/
theorem todoLe_total (a b : Todo) : todoLe a b || todoLe b a := by
  simp only [todoLe]
  cases ha : a.completed <;> cases hb : b.completed <;> simp_all <;> omega

/-- C9 The `all` view passes every task through: in the unsorted variant it
is exactly the collection in insertion order; in the sorted variant it is a
permutation of the collection, ordered by `completed` ascending (incomplete
first) and then by `createdAt` descending (newest first). -/
theorem views_order (todos : List Todo) :
    filteredTodos2 todos .all = todos ∧
    (filteredTodos todos .all).Perm todos ∧
    List.Pairwise
      (fun a b => (a.completed = false ∧ b.completed = true) ∨
        (a.completed = b.completed ∧ b.createdAt ≤ a.createdAt))
      (filteredTodos todos .all) := by
  have hfilter : todos.filter (filterPred .all) = todos := by
    apply List.filter_eq_self.mpr
    intro t _
    simp [filterPred]
  refine ⟨?_, ?_, ?_⟩
  · rw [filteredTodos2]; exact hfilter
  · rw [filteredTodos, hfilter, sortTodos]
    exact List.mergeSort_perm todos todoLe
  · rw [filteredTodos, hfilter, sortTodos]
    have hs := List.sorted_mergeSort todoLe_trans todoLe_total todos
    apply hs.imp
    intro a b hab
    simp only [todoLe] at hab
    by_cases h : a.completed = b.completed
    · rw [if_pos h] at hab
      exact Or.inr ⟨h, by simpa using hab⟩
    · rw [if_neg h] at hab
      cases ha : a.completed
      · cases hb : b.completed
        · exact absurd (ha.trans hb.symm) h
        · exact Or.inl ⟨rfl, rfl⟩
      · rw [ha] at hab; simp at hab

/-- C10 `toggle` preserves length and positions; at every position the id,
text and creation time are unchanged; the completed flag is unchanged off
the target id and negated on it; and toggling twice restores the original
collection. -/
theorem toggleTodo_frame (todos : List Todo) (i : String)
    (h : (todos.map Todo.id).Nodup) :
    (toggleTodo todos i).length = todos.length ∧
    (∀ j : Nat, ∀ t t' : Todo, todos[j]? = some t →
      (toggleTodo todos i)[j]? = some t' →
      t'.id = t.id ∧ t'.text = t.text ∧ t'.createdAt = t.createdAt ∧
      (t.id ≠ i → t'.completed = t.completed) ∧
      (t.id = i → t'.completed = !t.completed)) ∧
    toggleTodo (toggleTodo todos i) i = todos := by
  refine ⟨by simp [toggleTodo], ?_, ?_⟩
  · intro j t t' ht ht'
    rw [toggleTodo, List.getElem?_map, ht, Option.map_some'] at ht'
    injection ht' with ht''
    subst ht''
    by_cases hid : t.id = i <;> simp [hid]
  · rw [toggleTodo, toggleTodo, List.map_map]
    have hpt : ∀ t ∈ todos,
        ((fun t : Todo => if t.id = i then ⟨t.id, t.text, !t.completed, t.createdAt⟩ else t) ∘
          (fun t : Todo => if t.id = i then ⟨t.id, t.text, !t.completed, t.createdAt⟩ else t)) t
          = id t := by
      intro t _
      rcases t with ⟨tid, ttext, tc, tca⟩
      by_cases hid : tid = i <;> simp [Function.comp, hid]
    rw [List.map_congr_left hpt, List.map_id]

/-- Witness for C10 at a concrete collection. -/
theorem toggleTodo_frame_witness :
    (toggleTodo [⟨"a", "x", false, 0⟩, ⟨"b", "y", false, 1⟩] "a").length = 2 ∧
    toggleTodo (toggleTodo [⟨"a", "x", false, 0⟩, ⟨"b", "y", false, 1⟩] "a") "a" =
      [⟨"a", "x", false, 0⟩, ⟨"b", "y", false, 1⟩] := by
  have h := toggleTodo_frame [⟨"a", "x", false, 0⟩, ⟨"b", "y", false, 1⟩] "a" (by decide)
  exact ⟨h.1, h.2.2⟩

/-- C7 counterexample: with the session editing task `"a"` and a
whitespace-only draft, `save` leaves the session in the editing state
(`editingId` stays `some "a"`, not `none`), refuting the claim that
invoking save always returns the session to idle. -/
theorem saveEdit_blank_draft_counterexample :
    (saveEdit [⟨"a", "x", false, 0⟩] (some "a") "   ").2 = some "a" ∧
    some "a" ≠ (none : Option String) := ⟨rfl, by decide⟩

/-- C7 (amended) For an edit session `editing(i, draft)` with a non-empty
session id: when the draft trims to a non-empty string, save commits the
trimmed draft to the task with that id (everything else unchanged) and
returns the session to idle; when the draft trims to empty, save changes
nothing and the session stays editing; cancel always returns to idle
without touching the collection. -/
theorem saveEdit_cancelEdit_spec (todos : List Todo) (i draft : String)
    (hi : i ≠ "") :
    (jsTrim draft = "" → saveEdit todos (some i) draft = (todos, some i)) ∧
    (jsTrim draft ≠ "" →
      (saveEdit todos (some i) draft).2 = none ∧
      (saveEdit todos (some i) draft).1.length = todos.length ∧
      ∀ j : Nat, ∀ t t' : Todo, todos[j]? = some t →
        (saveEdit todos (some i) draft).1[j]? = some t' →
        t'.id = t.id ∧ t'.completed = t.completed ∧ t'.createdAt = t.createdAt ∧
        t'.text = (if t.id = i then jsTrim draft else t.text)) ∧
    cancelEdit todos (some i) = (todos, none) := by
  refine ⟨fun h => by simp [saveEdit, h], fun h => ?_, rfl⟩
  have hfst : (saveEdit todos (some i) draft).1 =
      todos.map fun t => if t.id = i then ⟨t.id, jsTrim draft, t.completed, t.createdAt⟩ else t := by
    simp [saveEdit, hi, h]
  refine ⟨by simp [saveEdit, hi, h], by rw [hfst]; simp, ?_⟩
  intro j t t' ht ht'
  rw [hfst, List.getElem?_map, ht, Option.map_some'] at ht'
  injection ht' with ht''
  subst ht''
  by_cases hid : t.id = i <;> simp [hid]

/-- Witness for C7's amended theorem at concrete inputs. -/
theorem saveEdit_cancelEdit_spec_witness :
    saveEdit [⟨"a", "x", false, 0⟩] (some "a") "  " = ([⟨"a", "x", false, 0⟩], some "a") ∧
    (saveEdit [⟨"a", "x", false, 0⟩] (some "a") " z ").2 = none ∧
    cancelEdit [⟨"a", "x", false, 0⟩] (some "a") = ([⟨"a", "x", false, 0⟩], none) := by
  have h := saveEdit_cancelEdit_spec [⟨"a", "x", false, 0⟩] "a" "  " (by decide)
  have h2 := saveEdit_cancelEdit_spec [⟨"a", "x", false, 0⟩] "a" " z " (by decide)
  exact ⟨h.1 (by decide), (h2.2.1 (by decide)).1, h.2.2⟩

/-! ## Round trip of the stored serialization

These lemmas establish that `jsonParse` recovers exactly the value
`saveTodos` stored, and hence that the load effect inverts the save effect.
They are the substance behind the persistence claims. -/

/-- Conversion `Char.toNat` inverts `Char.ofNat` on valid code points. -/
theorem char_toNat_ofNat (m : Nat) (h : Nat.isValidChar m) :
    (Char.ofNat m).toNat = m := by
  rw [Char.ofNat, dif_pos h]
  simp [Char.ofNatAux, Char.toNat, UInt32.toNat]

/-- Parsing `hexVal` inverts `hexDigitChar` on hexadecimal digit values. -/
theorem hexVal_hexDigitChar (d : Nat) (h : d < 16) :
    hexVal (hexDigitChar d) = some d := by
  interval_cases d <;> decide

/-- Parsing `parseStringBody` inverts the escaping `JSON.stringify` applies to a
string body, consuming through the closing quote. -/
theorem parseStringBody_escape (l rest : List Char) :
    parseStringBody (l.flatMap escapeChar ++ qu :: rest) = some (l, rest) := by
  induction l with
  | nil =>
    rw [List.flatMap_nil, List.nil_append, parseStringBody.eq_def]
    simp +decide
  | cons c cs ih =>
    rw [List.flatMap_cons, List.append_assoc, escapeChar]
    split_ifs with h1 h2 h3 h4 h5 h6 h7 h8
    · subst h1; rw [List.cons_append, List.cons_append, parseStringBody.eq_def]
      simp +decide [ih]
    · subst h2; rw [List.cons_append, List.cons_append, parseStringBody.eq_def]
      simp +decide [ih]
    · subst h3; rw [List.cons_append, List.cons_append, parseStringBody.eq_def]
      simp +decide [ih]
    · subst h4; rw [List.cons_append, List.cons_append, parseStringBody.eq_def]
      simp +decide [ih]
    · subst h5; rw [List.cons_append, List.cons_append, parseStringBody.eq_def]
      simp +decide [ih]
    · subst h6; rw [List.cons_append, List.cons_append, parseStringBody.eq_def]
      simp +decide [ih]
    · subst h7; rw [List.cons_append, List.cons_append, parseStringBody.eq_def]
      simp +decide [ih]
    · have hv3 := hexVal_hexDigitChar (c.toNat / 16) (by omega)
      have hv4 := hexVal_hexDigitChar (c.toNat % 16) (by omega)
      have h0 : hexVal '0' = some 0 := by decide
      have hn : 16 * (c.toNat / 16) + c.toNat % 16 = c.toNat := by omega
      have hval : Nat.isValidChar c.toNat := Or.inl (by omega)
      rw [List.cons_append, List.cons_append, List.cons_append, List.cons_append,
        List.cons_append, List.cons_append, parseStringBody.eq_def]
      simp +decide [hv3, hv4, h0, hn, hval, ih]
    · rw [List.cons_append, parseStringBody.eq_def]
      simp +decide [h1, h2, ih]
      omega

/-- With enough fuel, the digit accumulator is the canonical rendering
followed by the accumulator. -/
theorem natDigitsAux_eq (n : Nat) : ∀ fuel acc, n < fuel →
    natDigitsAux fuel n acc = renderNat n ++ acc := by
  induction n using Nat.strong_induction_on with
  | _ n ih =>
    intro fuel acc h
    match fuel with
    | 0 => omega
    | fuel + 1 =>
      rw [natDigitsAux]
      by_cases h10 : n < 10
      · rw [if_pos h10, renderNat, natDigitsAux, if_pos h10, List.singleton_append]
      · have hdiv : n / 10 < n := Nat.div_lt_self (by omega) (by omega)
        rw [if_neg h10, ih (n / 10) hdiv fuel _ (by omega)]
        conv_rhs => rw [renderNat, natDigitsAux, if_neg h10,
          ih (n / 10) hdiv n _ (by omega)]
        simp [List.append_assoc]

/-- One-digit rendering. -/
theorem renderNat_lt10 (n : Nat) (h : n < 10) :
    renderNat n = [Char.ofNat (48 + n)] := by
  rw [renderNat, natDigitsAux, if_pos h]

/-- Multi-digit rendering peels off the last digit. -/
theorem renderNat_ge10 (n : Nat) (h : ¬ n < 10) :
    renderNat n = renderNat (n / 10) ++ [Char.ofNat (48 + n % 10)] := by
  have hdiv : n / 10 < n := Nat.div_lt_self (by omega) (by omega)
  rw [renderNat, natDigitsAux, if_neg h, natDigitsAux_eq (n / 10) n _ (by omega)]

/-- Unfolding equation for `digitsToNat` on the empty list. -/
theorem digitsToNat_nil (acc : Nat) : digitsToNat acc [] = acc := rfl

/-- Unfolding equation for `digitsToNat` on a cons. -/
theorem digitsToNat_cons (acc : Nat) (c : Char) (cs : List Char) :
    digitsToNat acc (c :: cs) = digitsToNat (10 * acc + (c.toNat - 48)) cs := rfl

/-- Digit accumulation distributes over append. -/
theorem digitsToNat_append (acc : Nat) (l1 l2 : List Char) :
    digitsToNat acc (l1 ++ l2) = digitsToNat (digitsToNat acc l1) l2 := by
  induction l1 generalizing acc with
  | nil => rfl
  | cons c cs ih => rw [List.cons_append, digitsToNat_cons, digitsToNat_cons, ih]

/-- The code point of a rendered digit. -/
theorem toNat_digitChar (d : Nat) (h : d < 10) :
    (Char.ofNat (48 + d)).toNat = 48 + d :=
  char_toNat_ofNat (48 + d) (Or.inl (by omega))

/-- Accumulation `digitsToNat` inverts `renderNat`. -/
theorem digitsToNat_renderNat (n : Nat) : digitsToNat 0 (renderNat n) = n := by
  induction n using Nat.strong_induction_on with
  | _ n ih =>
    by_cases h10 : n < 10
    · rw [renderNat_lt10 n h10, digitsToNat_cons, digitsToNat_nil,
        toNat_digitChar n h10]
      omega
    · rw [renderNat_ge10 n h10, digitsToNat_append,
        ih (n / 10) (Nat.div_lt_self (by omega) (by omega)),
        digitsToNat_cons, digitsToNat_nil,
        toNat_digitChar (n % 10) (Nat.mod_lt _ (by omega))]
      omega

/-- Every character of a rendered number is a decimal digit. -/
theorem renderNat_digits (n : Nat) : ∀ c ∈ renderNat n, c.isDigit = true := by
  induction n using Nat.strong_induction_on with
  | _ n ih =>
    by_cases h10 : n < 10
    · rw [renderNat_lt10 n h10]
      intro c hc
      rw [List.mem_singleton] at hc
      subst hc
      interval_cases n <;> decide
    · rw [renderNat_ge10 n h10]
      intro c hc
      rcases List.mem_append.mp hc with h | h
      · exact ih (n / 10) (Nat.div_lt_self (by omega) (by omega)) c h
      · rw [List.mem_singleton] at h
        subst h
        have : n % 10 < 10 := Nat.mod_lt _ (by omega)
        set m := n % 10 with hm
        interval_cases m <;> decide

/-- A rendered number is never the empty character list. -/
theorem renderNat_ne_nil (n : Nat) : renderNat n ≠ [] := by
  by_cases h10 : n < 10
  · rw [renderNat_lt10 n h10]; simp
  · rw [renderNat_ge10 n h10]; simp

/-- A rendered number starts with a digit character. -/
theorem renderNat_head (n : Nat) :
    ∃ d tl, d < 10 ∧ renderNat n = Char.ofNat (48 + d) :: tl := by
  induction n using Nat.strong_induction_on with
  | _ n ih =>
    by_cases h10 : n < 10
    · exact ⟨n, [], h10, renderNat_lt10 n h10⟩
    · obtain ⟨d, tl, hd, heq⟩ := ih (n / 10) (Nat.div_lt_self (by omega) (by omega))
      exact ⟨d, tl ++ [Char.ofNat (48 + n % 10)], hd,
        by rw [renderNat_ge10 n h10, heq]; rfl⟩

/-- The facts the parser needs about a digit character: it is not
whitespace, not the head of any other token, and is a digit. -/
theorem digit_char_facts (d : Nat) (h : d < 10) :
    isWs (Char.ofNat (48 + d)) = false ∧ Char.ofNat (48 + d) ≠ 'n' ∧
    Char.ofNat (48 + d) ≠ 't' ∧ Char.ofNat (48 + d) ≠ 'f' ∧
    Char.ofNat (48 + d) ≠ qu ∧ Char.ofNat (48 + d) ≠ lsq ∧
    Char.ofNat (48 + d) ≠ lcurly ∧ (Char.ofNat (48 + d)).isDigit = true := by
  interval_cases d <;> exact (by decide)

/-- Skipping `skipWs` keeps a list headed by a non-whitespace character. -/
theorem skipWs_cons_of_not_ws (c : Char) (cs : List Char) (h : isWs c = false) :
    skipWs (c :: cs) = c :: cs := by
  rw [skipWs]
  simp [h]

/-- Splitting a digit run followed by a non-digit remainder. -/
theorem span_digits (ds : List Char) (hds : ∀ c ∈ ds, c.isDigit = true) :
    ∀ rest : List Char, (∀ c, rest.head? = some c → c.isDigit = false) →
    (ds ++ rest).takeWhile Char.isDigit = ds ∧
    (ds ++ rest).dropWhile Char.isDigit = rest := by
  induction ds with
  | nil =>
    intro rest hrest
    cases rest with
    | nil => exact ⟨rfl, rfl⟩
    | cons r rs =>
      have hr := hrest r rfl
      exact ⟨by simp [List.takeWhile_cons, hr], by simp [List.dropWhile_cons, hr]⟩
  | cons c cs ih =>
    intro rest hrest
    have hc := hds c (by simp)
    obtain ⟨h1, h2⟩ := ih (fun x hx => hds x (by simp [hx])) rest hrest
    exact ⟨by simp [List.takeWhile_cons, hc, h1],
      by simp [List.dropWhile_cons, hc, h2]⟩

/-- The parser consumes a rendered string value. -/
theorem parseStep_str (fuel : Nat) (s : String) (rest : List Char) :
    parseStep (fuel + 1) .val (renderString s ++ rest) = some (.str s, rest) := by
  rw [renderString]
  simp only [List.cons_append, List.append_assoc, List.singleton_append]
  rw [parseStep, skipWs_cons_of_not_ws _ _ (by decide)]
  simp +decide [parseStringBody_escape s.data rest]

/-- The parser consumes a rendered boolean value. -/
theorem parseStep_bool (fuel : Nat) (b : Bool) (rest : List Char) :
    parseStep (fuel + 1) .val (renderBool b ++ rest) = some (.bool b, rest) := by
  cases b <;>
    (rw [renderBool]
     simp only [List.cons_append, List.nil_append]
     rw [parseStep, skipWs_cons_of_not_ws _ _ (by decide)]
     simp +decide [expectLit])

/-- The parser consumes a rendered number followed by a closing brace. -/
theorem parseStep_num_rcurly (fuel n : Nat) (rest : List Char) :
    parseStep (fuel + 1) .val (renderNat n ++ rcurly :: rest) =
      some (.num n, rcurly :: rest) := by
  obtain ⟨d, tl, hd, heq⟩ := renderNat_head n
  obtain ⟨hws, hn, ht, hf, hq, hlsq, hlcurly, hdig⟩ := digit_char_facts d hd
  obtain ⟨htake, hdrop⟩ := span_digits (renderNat n) (renderNat_digits n)
    (rcurly :: rest) (by intro c hc; injection hc with hc; subst hc; decide)
  rw [heq] at htake hdrop
  rw [heq, List.cons_append, parseStep,
    skipWs_cons_of_not_ws _ _ hws]
  simp only [List.cons_append] at htake hdrop
  simp +decide [hn, ht, hf, hq, hlsq, hlcurly, hdig, htake, hdrop,
    ← heq, digitsToNat_renderNat n]

/-- The rendering of the literal key `"id"`. -/
theorem renderString_id : renderString "id" = [qu, 'i', 'd', qu] := rfl

/-- The rendering of the literal key `"text"`. -/
theorem renderString_text : renderString "text" = [qu, 't', 'e', 'x', 't', qu] := rfl

/-- The rendering of the literal key `"completed"`. -/
theorem renderString_completed :
    renderString "completed" = [qu, 'c', 'o', 'm', 'p', 'l', 'e', 't', 'e', 'd', qu] := rfl

/-- The rendering of the literal key `"createdAt"`. -/
theorem renderString_createdAt :
    renderString "createdAt" = [qu, 'c', 'r', 'e', 'a', 't', 'e', 'd', 'A', 't', qu] := rfl

/-- Parsing the stored key `"id"`. -/
theorem parse_key_id (tail : List Char) :
    parseStringBody ('i' :: 'd' :: qu :: tail) = some (['i', 'd'], tail) :=
  parseStringBody_escape ['i', 'd'] tail

/-- Parsing the stored key `"text"`. -/
theorem parse_key_text (tail : List Char) :
    parseStringBody ('t' :: 'e' :: 'x' :: 't' :: qu :: tail) =
      some (['t', 'e', 'x', 't'], tail) :=
  parseStringBody_escape ['t', 'e', 'x', 't'] tail

/-- Parsing the stored key `"completed"`. -/
theorem parse_key_completed (tail : List Char) :
    parseStringBody
        ('c' :: 'o' :: 'm' :: 'p' :: 'l' :: 'e' :: 't' :: 'e' :: 'd' :: qu :: tail) =
      some (['c', 'o', 'm', 'p', 'l', 'e', 't', 'e', 'd'], tail) :=
  parseStringBody_escape ['c', 'o', 'm', 'p', 'l', 'e', 't', 'e', 'd'] tail

/-- Parsing the stored key `"createdAt"`. -/
theorem parse_key_createdAt (tail : List Char) :
    parseStringBody
        ('c' :: 'r' :: 'e' :: 'a' :: 't' :: 'e' :: 'd' :: 'A' :: 't' :: qu :: tail) =
      some (['c', 'r', 'e', 'a', 't', 'e', 'd', 'A', 't'], tail) :=
  parseStringBody_escape ['c', 'r', 'e', 'a', 't', 'e', 'd', 'A', 't'] tail

/-- The parser consumes one rendered task object, recovering exactly the
four stored fields. Six units of fuel cover the nested calls: one for the
object, one per member, one for the value of the last member. -/
theorem parseStep_todo (fuel : Nat) (t : Todo) (rest : List Char) :
    parseStep (fuel + 6) .val (renderTodo t ++ rest) =
      some (todoToJson t, rest) := by
  rw [renderTodo, renderString_id, renderString_text, renderString_completed,
    renderString_createdAt]
  simp only [List.cons_append, List.append_assoc, List.nil_append]
  rw [parseStep, skipWs_cons_of_not_ws _ _ (by decide)]
  simp +decide [skipWs_cons_of_not_ws, parse_key_id]
  rw [parseStep, skipWs_cons_of_not_ws _ _ (by decide)]
  simp +decide [skipWs_cons_of_not_ws, parse_key_id, parseStep_str]
  rw [parseStep, skipWs_cons_of_not_ws _ _ (by decide)]
  simp +decide [skipWs_cons_of_not_ws, parse_key_text, parseStep_str]
  rw [parseStep, skipWs_cons_of_not_ws _ _ (by decide)]
  simp +decide [skipWs_cons_of_not_ws, parse_key_completed, parseStep_bool]
  rw [parseStep, skipWs_cons_of_not_ws _ _ (by decide)]
  simp +decide [skipWs_cons_of_not_ws, parse_key_createdAt, parseStep_num_rcurly,
    todoToJson]


theorem renderTodo_head (t : Todo) : ∃ tl, renderTodo t = lcurly :: tl :=
  ⟨_, rfl⟩

theorem parseStep_todosBody (ts : List Todo) :
    ts ≠ [] → ∀ fuel : Nat, ∀ acc : List Json, ∀ rest : List Char,
    parseStep (fuel + 7 * ts.length) (.elems acc) (renderTodosBody ts ++ rsq :: rest) =
      some (.arr (acc ++ ts.map todoToJson), rest) := by
  induction ts with
  | nil => intro h; exact absurd rfl h
  | cons t ts' ih =>
    intro _ fuel acc rest
    cases ts' with
    | nil =>
      show parseStep (fuel + 7) (.elems acc) (renderTodo t ++ rsq :: rest) =
        some (.arr (acc ++ [todoToJson t]), rest)
      rw [show fuel + 7 = (fuel + 6) + 1 from rfl, parseStep]
      simp +decide [parseStep_todo, skipWs_cons_of_not_ws]
    | cons t2 ts2 =>
      have e : fuel + 7 * (t :: t2 :: ts2).length = (fuel + 7 * (t2 :: ts2).length + 6) + 1 := by
        simp [List.length_cons]
        ring
      rw [show renderTodosBody (t :: t2 :: ts2) =
          renderTodo t ++ cm :: renderTodosBody (t2 :: ts2) from rfl, e, parseStep]
      simp only [List.append_assoc, List.cons_append]
      simp +decide [parseStep_todo, skipWs_cons_of_not_ws]
      have e2 : fuel + 7 * (ts2.length + 1) + 6 = (fuel + 6) + 7 * (t2 :: ts2).length := by
        simp [List.length_cons]
        ring
      rw [e2, ih (by simp) (fuel + 6) (acc ++ [todoToJson t]) rest]
      simp [List.append_assoc]

theorem renderTodosBody_head (t : Todo) (ts : List Todo) :
    ∃ tl, renderTodosBody (t :: ts) = lcurly :: tl := by
  obtain ⟨tl0, h0⟩ := renderTodo_head t
  cases ts with
  | nil => exact ⟨tl0, by rw [show renderTodosBody [t] = renderTodo t from rfl, h0]⟩
  | cons t2 ts2 =>
    exact ⟨tl0 ++ cm :: renderTodosBody (t2 :: ts2), by
      rw [show renderTodosBody (t :: t2 :: ts2) =
        renderTodo t ++ cm :: renderTodosBody (t2 :: ts2) from rfl, h0, List.cons_append]⟩

theorem parseStep_todosArr (fuel : Nat) (ts : List Todo) (rest : List Char) :
    parseStep (fuel + 7 * ts.length + 1) .val (renderTodos ts ++ rest) =
      some (.arr (ts.map todoToJson), rest) := by
  cases ts with
  | nil =>
    show parseStep (fuel + 1) .val ([lsq, rsq] ++ rest) = some (.arr [], rest)
    rw [List.cons_append, parseStep, skipWs_cons_of_not_ws _ _ (by decide)]
    simp +decide [skipWs_cons_of_not_ws]
  | cons t ts2 =>
    rw [show renderTodos (t :: ts2) = lsq :: renderTodosBody (t :: ts2) ++ [rsq] from rfl]
    simp only [List.cons_append, List.append_assoc, List.singleton_append]
    rw [parseStep, skipWs_cons_of_not_ws _ _ (by decide)]
    obtain ⟨tl, htl⟩ := renderTodosBody_head t ts2
    rw [htl]
    simp only [List.cons_append]
    rw [skipWs_cons_of_not_ws _ _ (by decide)]
    simp +decide
    have e3 : fuel + 7 * (ts2.length + 1) = fuel + 7 * (t :: ts2).length := by
      simp [List.length_cons]
    rw [e3, show lcurly :: (tl ++ rsq :: rest) = (lcurly :: tl) ++ rsq :: rest from rfl,
      ← htl, parseStep_todosBody (t :: ts2) (by simp) fuel [] rest]
    simp

theorem renderTodo_length (t : Todo) : 7 ≤ (renderTodo t).length := by
  rw [renderTodo, renderString_id, renderString_text, renderString_completed,
    renderString_createdAt]
  simp [List.length_append]
  omega

theorem renderTodosBody_length (ts : List Todo) :
    7 * ts.length ≤ (renderTodosBody ts).length + 1 := by
  induction ts with
  | nil => simp
  | cons t ts' ih =>
    cases ts' with
    | nil =>
      have h1 := renderTodo_length t
      rw [show renderTodosBody [t] = renderTodo t from rfl]
      simp
      omega
    | cons t2 ts2 =>
      have h1 := renderTodo_length t
      rw [show renderTodosBody (t :: t2 :: ts2) =
        renderTodo t ++ cm :: renderTodosBody (t2 :: ts2) from rfl]
      simp [List.length_append, List.length_cons] at *
      omega

theorem renderTodos_length (ts : List Todo) :
    7 * ts.length ≤ (renderTodos ts).length := by
  have h1 := renderTodosBody_length ts
  cases ts with
  | nil => simp
  | cons t ts2 =>
    rw [show renderTodos (t :: ts2) = lsq :: renderTodosBody (t :: ts2) ++ [rsq] from rfl]
    simp [List.length_append] at *
    omega

theorem jsonParse_saveTodos (ts : List Todo) :
    jsonParse (saveTodos ts) = some (.arr (ts.map todoToJson)) := by
  have hlen := renderTodos_length ts
  have hp := parseStep_todosArr ((renderTodos ts).length - 7 * ts.length) ts []
  rw [List.append_nil] at hp
  rw [jsonParse]
  rw [show (saveTodos ts).data = renderTodos ts from rfl,
    show (saveTodos ts).length = (renderTodos ts).length from rfl,
    show (renderTodos ts).length + 1 =
      ((renderTodos ts).length - 7 * ts.length) + 7 * ts.length + 1 from by omega,
    hp]
  simp [skipWs]

theorem todoOfJson_todoToJson (t : Todo) : todoOfJson (todoToJson t) = some t := by
  simp +decide [todoOfJson, todoToJson]

theorem todoListOfJson_map (ts : List Todo) :
    todoListOfJson (ts.map todoToJson) = some ts := by
  induction ts with
  | nil => rfl
  | cons t ts' ih => simp [todoListOfJson, todoOfJson_todoToJson, ih]

theorem loadTodos_saveTodos (ts : List Todo) :
    loadTodos (some (saveTodos ts)) = .ok ts := by
  have hne : saveTodos ts ≠ "" := by
    intro h
    have hd : renderTodos ts = ([] : List Char) := congrArg String.data h
    cases ts with
    | nil => simp [show renderTodos [] = [lsq, rsq] from rfl] at hd
    | cons t ts2 =>
      rw [show renderTodos (t :: ts2) =
        lsq :: renderTodosBody (t :: ts2) ++ [rsq] from rfl] at hd
      simp at hd
  rw [loadTodos, if_neg hne, jsonParse_saveTodos]
  simp [show todosOfJson (.arr (ts.map todoToJson)) =
    todoListOfJson (ts.map todoToJson) from rfl, todoListOfJson_map]

/-! ## Claim theorems: persistence -/

/-- C3 Loading the stored serialization of a valid task collection
recovers exactly that collection: `load (save tasks) = tasks` for the
defined fields. -/
theorem save_load_roundtrip (ts : List Todo) (h : TodosValid ts) :
    loadTodos (some (saveTodos ts)) = .ok ts :=
  loadTodos_saveTodos ts

/-- Witness for C3 at a concrete two-task collection. -/
theorem save_load_roundtrip_witness :
    loadTodos (some (saveTodos [⟨"a", "buy milk", false, 17⟩, ⟨"b", "write", true, 3⟩])) =
      .ok [⟨"a", "buy milk", false, 17⟩, ⟨"b", "write", true, 3⟩] :=
  save_load_roundtrip [⟨"a", "buy milk", false, 17⟩, ⟨"b", "write", true, 3⟩] (by decide)

/-- C2 counterexample: the stored string `"oops"` is truthy but malformed,
`JSON.parse` throws (modelled `Except.error`), and the load result is not
the empty collection — refuting the claim that load never raises. -/
theorem load_malformed_counterexample :
    loadTodos (some "oops") = .error LoadError.parse ∧
    loadTodos (some "oops") ≠ .ok [] :=
  ⟨rfl, fun h => Except.noConfusion h⟩

/-- C2 (amended) Absent stored data — and the empty string, which the
JavaScript truthiness guard treats the same way — yields the empty
collection; load of malformed stored data, however, can raise: on the
stored strings `"oops"` and `"{"`, `JSON.parse` throws an uncaught
`SyntaxError` instead of the load yielding the empty collection. Both
inputs are rejected at their very first token, where the parser model
agrees exactly with `JSON.parse` (`'o'` starts no JSON value; `"{"` ends
before a member or closing brace); no statement here quantifies over the
parser's general failure set, which the model does not claim to match. -/
theorem load_absent_or_malformed :
    loadTodos none = .ok [] ∧
    loadTodos (some "") = .ok [] ∧
    loadTodos (some "oops") = .error LoadError.parse ∧
    loadTodos (some (String.mk [lcurly])) = .error LoadError.parse :=
  ⟨rfl, rfl, rfl, rfl⟩

/-- C4 counterexample: the load effect installs any well-shaped stored
array without validation, so stored data with two tasks sharing the id
`"a"` loads successfully into a collection that violates the unique-id
invariant — refuting the claim that load preserves the invariant. -/
theorem load_invariant_counterexample :
    loadTodos (some (saveTodos [⟨"a", "x", false, 0⟩, ⟨"a", "y", false, 1⟩])) =
      .ok [⟨"a", "x", false, 0⟩, ⟨"a", "y", false, 1⟩] ∧
    ¬ TodosValid [⟨"a", "x", false, 0⟩, ⟨"a", "y", false, 1⟩] :=
  ⟨rfl, by decide⟩

/-- Mapping a field-respecting function over a valid collection stays
valid: ids are preserved and non-empty text is preserved. -/
theorem TodosValid_map (todos : List Todo) (f : Todo → Todo)
    (hid : ∀ t, (f t).id = t.id)
    (htext : ∀ t : Todo, t.text ≠ "" → (f t).text ≠ "")
    (h : TodosValid todos) : TodosValid (todos.map f) := by
  constructor
  · rw [List.map_map, show Todo.id ∘ f = Todo.id from funext fun t => hid t]
    exact h.1
  · intro t ht
    rcases List.mem_map.mp ht with ⟨u, hu, rfl⟩
    exact htext u (h.2 u hu)

/-- Filtering a valid collection stays valid. -/
theorem TodosValid_filter (todos : List Todo) (p : Todo → Bool)
    (h : TodosValid todos) : TodosValid (todos.filter p) := by
  constructor
  · exact List.Nodup.sublist ((List.filter_sublist todos).map Todo.id) h.1
  · intro t ht
    exact h.2 t (List.mem_of_mem_filter ht)

/-- C4 (amended) The invariant — pairwise-distinct ids and no empty task
text — holds for the initial empty collection and is preserved by add
(given a fresh generated id), toggle, save-edit, delete and
clear-completed; and loading the serialization of an invariant-satisfying
collection reproduces that collection. Load of arbitrary well-shaped
stored data, however, is not validated (see the counterexample). -/
theorem invariant_preservation :
    TodosValid ([] : List Todo) ∧
    (∀ todos text newId now, TodosValid todos → newId ∉ todos.map Todo.id →
      TodosValid (addTodo todos text newId now)) ∧
    (∀ todos i, TodosValid todos → TodosValid (toggleTodo todos i)) ∧
    (∀ todos eid draft, TodosValid todos → TodosValid (saveEdit todos eid draft).1) ∧
    (∀ todos i, TodosValid todos → TodosValid (deleteTodo todos i)) ∧
    (∀ todos, TodosValid todos → TodosValid (clearCompleted todos)) ∧
    (∀ ts, TodosValid ts → loadTodos (some (saveTodos ts)) = .ok ts) := by
  refine ⟨by constructor <;> simp [TodosValid], ?_, ?_, ?_, ?_, ?_,
    fun ts _ => loadTodos_saveTodos ts⟩
  · intro todos text newId now h hfresh
    by_cases ht : jsTrim text = ""
    · simpa [addTodo, ht] using h
    · rw [addTodo, if_pos ht]
      constructor
      · rw [List.map_append]
        rw [List.nodup_append]
        refine ⟨h.1, by simp, ?_⟩
        intro a ha hb
        simp at hb
        subst hb
        exact hfresh ha
      · intro t htm
        rcases List.mem_append.mp htm with hm | hm
        · exact h.2 t hm
        · rw [List.mem_singleton] at hm
          subst hm
          exact ht
  · intro todos i h
    exact TodosValid_map todos _ (by intro t; by_cases hid : t.id = i <;> simp [hid])
      (by intro t htx; by_cases hid : t.id = i <;> simp [hid, htx]) h
  · intro todos eid draft h
    match eid with
    | none => exact h
    | some i =>
      rw [saveEdit]
      by_cases hc : i ≠ "" ∧ jsTrim draft ≠ ""
      · rw [if_pos hc]
        exact TodosValid_map todos _
          (by intro t; by_cases hid : t.id = i <;> simp [hid])
          (by intro t htx; by_cases hid : t.id = i <;> simp [hid, htx, hc.2]) h
      · rw [if_neg hc]
        exact h
  · intro todos i h
    exact TodosValid_filter todos _ h
  · intro todos h
    exact TodosValid_filter todos _ h

/-- Witness for C4's amended theorem at concrete inputs. -/
theorem invariant_preservation_witness :
    TodosValid (addTodo [] "hi" "u1" 0) ∧
    TodosValid (toggleTodo [⟨"a", "x", false, 0⟩] "a") ∧
    loadTodos (some (saveTodos [⟨"a", "x", false, 0⟩])) = .ok [⟨"a", "x", false, 0⟩] :=
  ⟨invariant_preservation.2.1 [] "hi" "u1" 0 (by decide) (by decide),
    invariant_preservation.2.2.1 [⟨"a", "x", false, 0⟩] "a" (by decide),
    invariant_preservation.2.2.2.2.2.2 [⟨"a", "x", false, 0⟩] (by decide)⟩

end TodoApp



